import Mathlib

set_option maxRecDepth 100000

/-!
Verification of `patches/apply_patch.py`, a single-file maintenance script that
applies, checks, or undoes a textual patch on a target file.

The script works on the file's content as opaque text:
* `is_patched` checks whether the fixed marker string occurs in the content;
* `apply_patch` creates a backup (if none exists), counts the occurrences of a
  fixed literal anchor pattern (the regex in the script only uses escaped
  literal characters, so it denotes the literal string `ANCHOR`), and replaces
  every occurrence with the fixed replacement `PATCH_CODE`
  (`re.sub`, i.e. leftmost non-overlapping literal replacement);
* `undo_patch` restores the target from the backup when the backup exists;
* `main` dispatches on the command line flag and produces the exit code.

File contents are modelled as `List Char`; the file system state relevant to
the script is modelled as the pair of the target content and the optional
backup content (`PatchFS`).
-/

namespace ApplyPatchModel

/-- `PATCH_MARKER` from the script: its presence signals "patched". -/
def PATCH_MARKER : List Char := "HACK: FORCE SNOWFLAKE COMPATIBILITY".data

/-- `PATCH_CODE` from the script: the replacement text (it ends with a copy of
the anchor line, preceded by the inserted marker-commented lines). -/
def PATCH_CODE : List Char := "\n                # --- HACK: FORCE SNOWFLAKE COMPATIBILITY ---\n                if \"max_tokens\" in data:\n                    data[\"max_completion_tokens\"] = data.pop(\"max_tokens\")\n                # -------------------------------------------\n\n                headers, response = await self.make_openai_chat_completion_request(".data

/-- The literal string denoted by the anchor regex
`r'\n                headers, response = await self\.make_openai_chat_completion_request\('`
(every metacharacter in it is escaped, so it matches exactly this text). -/
def ANCHOR : List Char := "\n                headers, response = await self.make_openai_chat_completion_request(".data

/-- The part of `PATCH_CODE` that precedes its trailing copy of the anchor:
the inserted block of marker-commented lines. -/
def BLOCK : List Char := "\n                # --- HACK: FORCE SNOWFLAKE COMPATIBILITY ---\n                if \"max_tokens\" in data:\n                    data[\"max_completion_tokens\"] = data.pop(\"max_tokens\")\n                # -------------------------------------------\n".data

/-- Boolean substring containment, the model of Python's `needle in haystack`
on strings (used by `is_patched`). -/
def containsSub (needle : List Char) : List Char → Bool
  | [] => needle.isEmpty
  | c :: cs => needle.isPrefixOf (c :: cs) || containsSub needle cs

/-- Number of occurrence positions of `m` in a list: the number of positions
whose suffix starts with `m`.  Used to state "contains … exactly once per …". -/
def countPos (m : List Char) : List Char → Nat
  | [] => 0
  | c :: cs => (if m.isPrefixOf (c :: cs) then 1 else 0) + countPos m cs

/-- Leftmost non-overlapping replacement of a literal pattern, the model of
`re.sub(pattern, rep, content)` for the literal pattern of the script.
The first argument is the number of characters of a previous match still to be
consumed (skipped) before scanning resumes. -/
def substAux (pat rep : List Char) : Nat → List Char → List Char
  | _, [] => []
  | n + 1, _ :: cs => substAux pat rep n cs
  | 0, c :: cs =>
    if pat.isPrefixOf (c :: cs) then rep ++ substAux pat rep (pat.length - 1) cs
    else c :: substAux pat rep 0 cs

/-- `re.sub` on a literal pattern: scan from the left, replace each
non-overlapping occurrence of `pat` by `rep`. -/
def subst (pat rep l : List Char) : List Char := substAux pat rep 0 l

/-- Number of matches found by `re.findall(pattern, content)` for the literal
pattern of the script: leftmost non-overlapping matches.  Same scanning
discipline as `substAux`. -/
def countMatchesAux (pat : List Char) : Nat → List Char → Nat
  | _, [] => 0
  | n + 1, _ :: cs => countMatchesAux pat n cs
  | 0, c :: cs =>
    if pat.isPrefixOf (c :: cs) then 1 + countMatchesAux pat (pat.length - 1) cs
    else countMatchesAux pat 0 cs

/-- `len(re.findall(pattern, content))` for the literal pattern. -/
def countMatches (pat l : List Char) : Nat := countMatchesAux pat 0 l

/-- Helper predicate (Boolean, for concrete checking): no nonempty suffix of
`a` that is shorter than `m` is a prefix of `m`.  When this holds, no
occurrence of `m` can straddle the boundary in `a ++ b`. -/
def noStraddle (a m : List Char) : Bool :=
  (List.range a.length).all fun k =>
    ! (decide ((a.drop k).length < m.length) && (a.drop k).isPrefixOf m)

/-- The file-system state the script manipulates: the target file's content and
the content of the backup file (`none` when `filepath + ".backup"` does not
exist). -/
structure PatchFS where
  target : List Char
  backup : Option (List Char)
deriving DecidableEq

/-- `is_patched(filepath)`: `PATCH_MARKER in f.read()`. -/
def is_patched (content : List Char) : Bool := containsSub PATCH_MARKER content

/-- The `if not os.path.exists(backup_path): shutil.copy2(filepath, backup_path)`
step of `apply_patch`: create the backup only when none exists. -/
def ensureBackup (fs : PatchFS) : PatchFS :=
  match fs.backup with
  | none => { target := fs.target, backup := some fs.target }
  | some _ => fs

/-- Outcome of one `apply_patch` call, recording which of the three exits was
taken (each exit prints a distinct message in the script) and, on success, the
reported number of patched locations `len(matches)`. -/
inductive ApplyStatus where
  | alreadyPatched : ApplyStatus
  | patternNotFound : ApplyStatus
  | applied : Nat → ApplyStatus
deriving DecidableEq

/-- The boolean the script's `apply_patch` returns: `True` iff the patch was
applied, `False` on the "already applied" and "pattern not found" exits. -/
def ApplyStatus.retBool : ApplyStatus → Bool
  | .applied _ => true
  | _ => false

/-- `apply_patch(filepath)`: marker check, backup creation, match count,
substitution, write-back. -/
def apply_patch (fs : PatchFS) : ApplyStatus × PatchFS :=
  if is_patched fs.target then
    (ApplyStatus.alreadyPatched, fs)
  else
    let fs1 := ensureBackup fs
    let n := countMatches ANCHOR fs1.target
    if n = 0 then
      (ApplyStatus.patternNotFound, fs1)
    else
      (ApplyStatus.applied n,
        { target := subst ANCHOR PATCH_CODE fs1.target, backup := fs1.backup })

/-- `undo_patch(filepath)`: if the backup exists, copy it over the target and
return `True`; otherwise return `False` without modifying anything. -/
def undo_patch (fs : PatchFS) : Bool × PatchFS :=
  match fs.backup with
  | none => (false, fs)
  | some b => (true, { target := b, backup := fs.backup })

/-- The three mutually exclusive command-line modes of `main`. -/
inductive CliMode where
  | applyMode : CliMode
  | checkMode : CliMode
  | undoMode : CliMode

/-- `main()` after path resolution: dispatch on the flag, perform the
operation, and exit.  The result is the process exit code paired with the
resulting file-system state. -/
def main_run : CliMode → PatchFS → Nat × PatchFS
  | .checkMode, fs => (if is_patched fs.target then 0 else 1, fs)
  | .undoMode, fs => (0, (undo_patch fs).2)
  | .applyMode, fs => (0, (apply_patch fs).2)

/-! ### Basic facts about the embedded string operations -/

lemma containsSub_spec (n : List Char) : ∀ h : List Char, containsSub n h = true ↔ n <:+: h := by
  intro h
  induction h with
  | nil =>
    simp [containsSub, List.isEmpty_iff]
  | cons c cs ih =>
    simp only [containsSub, Bool.or_eq_true, ih, List.infix_cons_iff,
      List.isPrefixOf_iff_prefix]

lemma noStraddle_spec {a m : List Char} (hns : noStraddle a m = true) :
    ∀ s : List Char, s <:+ a → s ≠ [] → s.length < m.length → ¬ s <+: m := by
  intro s hs hne hlt hp
  have hsl : 0 < s.length := List.length_pos.mpr hne
  have hdrop : s = a.drop (a.length - s.length) := List.suffix_iff_eq_drop.mp hs
  have hkr : a.length - s.length < a.length := by
    have := hs.length_le
    omega
  have hall := List.all_eq_true.mp hns (a.length - s.length) (List.mem_range.mpr hkr)
  rw [← hdrop] at hall
  have hpre := List.isPrefixOf_iff_prefix.mpr hp
  rw [decide_eq_true hlt, hpre] at hall
  simp at hall

lemma prefix_of_append_of_le {m a b : List Char} (h : m <+: a ++ b)
    (hl : m.length ≤ a.length) : m <+: a := by
  have h1 : m = (a ++ b).take m.length := List.prefix_iff_eq_take.mp h
  have h2 : (a ++ b).take m.length = a.take m.length := List.take_append_of_le_length hl
  rw [h1, h2]
  exact List.take_prefix _ _

lemma countPos_nil (m : List Char) : countPos m [] = 0 := rfl

lemma countPos_append (m a b : List Char)
    (h : ∀ s : List Char, s <:+ a → s ≠ [] → s.length < m.length → ¬ s <+: m) :
    countPos m (a ++ b) = countPos m a + countPos m b := by
  induction a with
  | nil => simp [countPos]
  | cons c as ih =>
    have hcond : m.isPrefixOf (c :: (as ++ b)) = m.isPrefixOf (c :: as) := by
      by_cases hp : m <+: c :: as
      · have h1 : m <+: c :: (as ++ b) := by
          have h2 := hp.trans ( List.prefix_append (c :: as) b)
          rwa [List.cons_append] at h2
        rw [ List.isPrefixOf_iff_prefix.mpr hp, List.isPrefixOf_iff_prefix.mpr h1]
      · have h2 : ¬ m <+: c :: (as ++ b) := by
          intro hmab
          have hmab' : m <+: (c :: as) ++ b := by rwa [List.cons_append]
          rcases le_or_lt m.length (c :: as).length with hle | hgt
          · exact hp (prefix_of_append_of_le hmab' hle)
          · have h3 : (c :: as) <+: m :=
              List.prefix_of_prefix_length_le ( List.prefix_append (c :: as) b) hmab'
                (Nat.le_of_lt hgt)
            exact h (c :: as) ( List.suffix_refl _) (by simp) hgt h3
        have e1 : m.isPrefixOf (c :: (as ++ b)) = false := by
          cases hxx : m.isPrefixOf (c :: (as ++ b)) with
          | false => rfl
          | true => exact absurd ( List.isPrefixOf_iff_prefix.mp hxx) h2
        have e2 : m.isPrefixOf (c :: as) = false := by
          cases hxx : m.isPrefixOf (c :: as) with
          | false => rfl
          | true => exact absurd ( List.isPrefixOf_iff_prefix.mp hxx) hp
        rw [e1, e2]
    have ih' := ih (fun s hs hne hlt => h s (hs.trans ( List.suffix_cons c as)) hne hlt)
    simp only [List.cons_append, countPos, List.append_eq]
    simp only [hcond, ih']
    omega

lemma substAux_skip (pat rep : List Char) : ∀ (l : List Char) (n : Nat),
    substAux pat rep n l = substAux pat rep 0 (l.drop n) := by
  intro l
  induction l with
  | nil => intro n; cases n <;> rfl
  | cons c cs ih =>
    intro n
    cases n with
    | zero => rfl
    | succ k =>
      show substAux pat rep k cs = substAux pat rep 0 ((c :: cs).drop (k + 1))
      rw [List.drop_succ_cons, ih k]

lemma countMatchesAux_skip (pat : List Char) : ∀ (l : List Char) (n : Nat),
    countMatchesAux pat n l = countMatchesAux pat 0 (l.drop n) := by
  intro l
  induction l with
  | nil => intro n; cases n <;> rfl
  | cons c cs ih =>
    intro n
    cases n with
    | zero => rfl
    | succ k =>
      show countMatchesAux pat k cs = countMatchesAux pat 0 ((c :: cs).drop (k + 1))
      rw [List.drop_succ_cons, ih k]

lemma subst_cons_pos {pat rep : List Char} {c : Char} {cs : List Char}
    (h : pat.isPrefixOf (c :: cs) = true) :
    subst pat rep (c :: cs) = rep ++ subst pat rep (cs.drop (pat.length - 1)) := by
  show substAux pat rep 0 (c :: cs) = _
  rw [substAux, if_pos h, substAux_skip]
  rfl

lemma subst_cons_neg {pat rep : List Char} {c : Char} {cs : List Char}
    (h : pat.isPrefixOf (c :: cs) = false) :
    subst pat rep (c :: cs) = c :: subst pat rep cs := by
  show substAux pat rep 0 (c :: cs) = _
  rw [substAux, if_neg (fun hh => Bool.false_ne_true (h ▸ hh))]
  rfl

lemma countMatches_cons_pos {pat : List Char} {c : Char} {cs : List Char}
    (h : pat.isPrefixOf (c :: cs) = true) :
    countMatches pat (c :: cs) = 1 + countMatches pat (cs.drop (pat.length - 1)) := by
  show countMatchesAux pat 0 (c :: cs) = _
  rw [countMatchesAux, if_pos h, countMatchesAux_skip]
  rfl

lemma countMatches_cons_neg {pat : List Char} {c : Char} {cs : List Char}
    (h : pat.isPrefixOf (c :: cs) = false) :
    countMatches pat (c :: cs) = countMatches pat cs := by
  show countMatchesAux pat 0 (c :: cs) = _
  rw [countMatchesAux, if_neg (fun hh => Bool.false_ne_true (h ▸ hh))]
  rfl

/-! ### Concrete facts about the script's constants, checked by evaluation -/

lemma anchor_ne_nil : ANCHOR ≠ [] := by decide

lemma anchor_length_pos : 0 < ANCHOR.length := by decide

lemma anchor_head_eq : ANCHOR = '\n' :: ANCHOR.tail := rfl

lemma code_head_eq : PATCH_CODE = '\n' :: PATCH_CODE.tail := rfl

lemma newline_not_mem_marker : '\n' ∉ PATCH_MARKER := by decide

lemma countPos_marker_code : countPos PATCH_MARKER PATCH_CODE = 1 := by decide

lemma countPos_anchor_code : countPos ANCHOR PATCH_CODE = 1 := by decide

lemma countPos_anchor_anchor : countPos ANCHOR ANCHOR = 1 := by decide

lemma noStraddle_anchor_anchor : noStraddle ANCHOR ANCHOR = true := by decide

lemma noStraddle_code_marker : noStraddle PATCH_CODE PATCH_MARKER = true := by decide

lemma noStraddle_code_anchor : noStraddle PATCH_CODE ANCHOR = true := by decide

lemma code_eq_block_append_anchor : PATCH_CODE = BLOCK ++ ANCHOR := by decide

lemma anchor_tail_length : ANCHOR.tail.length = ANCHOR.length - 1 := by decide

lemma countPos_marker_code_append (x : List Char) :
    countPos PATCH_MARKER (PATCH_CODE ++ x) = 1 + countPos PATCH_MARKER x := by
  rw [countPos_append _ _ _ (noStraddle_spec noStraddle_code_marker), countPos_marker_code]

lemma countPos_anchor_code_append (x : List Char) :
    countPos ANCHOR (PATCH_CODE ++ x) = 1 + countPos ANCHOR x := by
  rw [countPos_append _ _ _ (noStraddle_spec noStraddle_code_anchor), countPos_anchor_code]

lemma countPos_anchor_anchor_append (x : List Char) :
    countPos ANCHOR (ANCHOR ++ x) = 1 + countPos ANCHOR x := by
  rw [countPos_append _ _ _ (noStraddle_spec noStraddle_anchor_anchor), countPos_anchor_anchor]

lemma subst_anchor_head (rest : List Char) :
    subst ANCHOR PATCH_CODE (ANCHOR ++ rest) = PATCH_CODE ++ subst ANCHOR PATCH_CODE rest := by
  have hsplit : ANCHOR ++ rest = '\n' :: (ANCHOR.tail ++ rest) := rfl
  have hpre : ANCHOR.isPrefixOf ('\n' :: (ANCHOR.tail ++ rest)) = true := by
    rw [← hsplit]
    exact List.isPrefixOf_iff_prefix.mpr ( List.prefix_append _ _)
  rw [hsplit, subst_cons_pos hpre, List.drop_left' anchor_tail_length]

lemma countMatches_anchor_head (rest : List Char) :
    countMatches ANCHOR (ANCHOR ++ rest) = 1 + countMatches ANCHOR rest := by
  have hsplit : ANCHOR ++ rest = '\n' :: (ANCHOR.tail ++ rest) := rfl
  have hpre : ANCHOR.isPrefixOf ('\n' :: (ANCHOR.tail ++ rest)) = true := by
    rw [← hsplit]
    exact List.isPrefixOf_iff_prefix.mpr ( List.prefix_append _ _)
  rw [hsplit, countMatches_cons_pos hpre, List.drop_left' anchor_tail_length]

/-- A pattern that contains no newline starts at some position of the
substituted text iff it starts at that position of the original text: the
replacement text and the anchor both start with a newline, so such a pattern
can never begin at a rewritten position. -/
lemma isPrefixOf_subst_no_newline : ∀ ms l : List Char, ms ≠ [] → '\n' ∉ ms →
    ms.isPrefixOf (subst ANCHOR PATCH_CODE l) = ms.isPrefixOf l := by
  intro ms l
  induction l generalizing ms with
  | nil => intro _ _; rfl
  | cons c cs ih =>
    intro hne hnl
    obtain ⟨m, ms', rfl⟩ : ∃ x xs, ms = x :: xs := by
      cases ms with
      | nil => exact absurd rfl hne
      | cons x xs => exact ⟨x, xs, rfl⟩
    have hm : m ≠ '\n' := fun h => hnl (h ▸ List.mem_cons_self m ms')
    cases hA : ANCHOR.isPrefixOf (c :: cs) with
    | true =>
      have hc : c = '\n' := by
        obtain ⟨t, ht⟩ := List.isPrefixOf_iff_prefix.mp hA
        rw [anchor_head_eq, List.cons_append] at ht
        exact (List.cons_eq_cons.mp ht).1.symm
      subst hc
      rw [subst_cons_pos hA, code_head_eq, List.cons_append]
      rw [List.isPrefixOf_cons₂, List.isPrefixOf_cons₂]
      have hbeq : (m == '\n') = false := beq_eq_false_iff_ne.mpr hm
      rw [hbeq, Bool.false_and, Bool.false_and]
    | false =>
      rw [subst_cons_neg hA]
      rw [List.isPrefixOf_cons₂, List.isPrefixOf_cons₂]
      cases ms' with
      | nil => simp
      | cons m2 ms'' =>
        have hnl2 : '\n' ∉ (m2 :: ms'') := fun h => hnl (List.mem_cons_of_mem m h)
        rw [ih (m2 :: ms'') (by simp) hnl2]

/-- If the pattern occurs somewhere, `countPos` is positive; contrapositive of
"no occurrence". -/
lemma infix_of_countPos_pos (m : List Char) : ∀ l : List Char, countPos m l ≠ 0 → m <:+: l := by
  intro l
  induction l with
  | nil => intro h; exact absurd rfl h
  | cons c cs ih =>
    intro h
    cases hp : m.isPrefixOf (c :: cs) with
    | true => exact ( List.isPrefixOf_iff_prefix.mp hp).isInfix
    | false =>
      apply List.infix_cons
      apply ih
      intro h0
      apply h
      show (if m.isPrefixOf (c :: cs) then 1 else 0) + countPos m cs = 0
      rw [hp, h0]
      rfl

lemma countPos_cons_eq (m : List Char) (c : Char) (cs : List Char) :
    countPos m (c :: cs) = (if m.isPrefixOf (c :: cs) then 1 else 0) + countPos m cs := rfl

lemma marker_ne_nil : PATCH_MARKER ≠ [] := by decide

lemma anchor_tail_ne_nil : ANCHOR.tail ≠ [] := by decide

lemma newline_not_mem_anchor_tail : '\n' ∉ ANCHOR.tail := by decide

/-- If the anchor does not start at the head of `l`, it does not start at the
head of the substituted `l` either. -/
lemma anchor_isPrefixOf_subst_eq (c : Char) (cs : List Char)
    (h : ANCHOR.isPrefixOf (c :: cs) = false) :
    ANCHOR.isPrefixOf (c :: subst ANCHOR PATCH_CODE cs) = false := by
  have hstr := isPrefixOf_subst_no_newline ANCHOR.tail cs anchor_tail_ne_nil
    newline_not_mem_anchor_tail
  generalize hX : subst ANCHOR PATCH_CODE cs = X at hstr ⊢
  rw [anchor_head_eq, List.isPrefixOf_cons₂] at h ⊢
  rw [hstr]
  exact h

/-- Core counting lemma: as long as the marker nowhere occurs in `l`, the
substituted text contains exactly one marker occurrence per anchor occurrence
position of `l`. -/
lemma countPos_marker_subst_aux : ∀ (n : Nat) (l : List Char), l.length ≤ n →
    ¬ PATCH_MARKER <:+: l →
    countPos PATCH_MARKER (subst ANCHOR PATCH_CODE l) = countPos ANCHOR l := by
  intro n
  induction n with
  | zero =>
    intro l hl _
    have hnil : l = [] := List.length_eq_zero.mp (Nat.le_zero.mp hl)
    subst hnil
    rfl
  | succ k ih =>
    intro l hl hnm
    cases l with
    | nil => rfl
    | cons c cs =>
      cases hA : ANCHOR.isPrefixOf (c :: cs) with
      | true =>
        obtain ⟨rest, hrest⟩ := List.isPrefixOf_iff_prefix.mp hA
        rw [← hrest]
        rw [subst_anchor_head, countPos_marker_code_append, countPos_anchor_anchor_append]
        have hlen : rest.length ≤ k := by
          have h1 : (ANCHOR ++ rest).length = (c :: cs).length := by rw [hrest]
          rw [List.length_append, List.length_cons] at h1
          have h2 := anchor_length_pos
          have h3 : (c :: cs).length ≤ k + 1 := hl
          rw [List.length_cons] at h3
          omega
        have hnm' : ¬ PATCH_MARKER <:+: rest := fun hin => by
          apply hnm
          rw [← hrest]
          exact hin.trans ( List.suffix_append ANCHOR rest).isInfix
        rw [ih rest hlen hnm']
      | false =>
        have hmf : PATCH_MARKER.isPrefixOf (c :: cs) = false := by
          cases hx : PATCH_MARKER.isPrefixOf (c :: cs) with
          | false => rfl
          | true => exact absurd (( List.isPrefixOf_iff_prefix.mp hx).isInfix) hnm
        have hms : PATCH_MARKER.isPrefixOf (c :: subst ANCHOR PATCH_CODE cs) = false := by
          rw [← subst_cons_neg hA]
          rw [isPrefixOf_subst_no_newline PATCH_MARKER (c :: cs) marker_ne_nil
            newline_not_mem_marker]
          exact hmf
        have hcs : cs.length ≤ k := by
          have h3 : (c :: cs).length ≤ k + 1 := hl
          rw [List.length_cons] at h3
          omega
        have hnm' : ¬ PATCH_MARKER <:+: cs := fun hin => hnm (List.infix_cons hin)
        rw [subst_cons_neg hA, countPos_cons_eq, countPos_cons_eq]
        simp only [hms, hA, ih cs hcs hnm']

/-- Marker-count version without the fuel argument. -/
lemma countPos_marker_subst (l : List Char) (h : ¬ PATCH_MARKER <:+: l) :
    countPos PATCH_MARKER (subst ANCHOR PATCH_CODE l) = countPos ANCHOR l :=
  countPos_marker_subst_aux l.length l (Nat.le_refl _) h

/-- The substitution preserves the number of anchor occurrence positions:
each replaced occurrence reappears exactly once at the end of the inserted
`PATCH_CODE`, and no new occurrence is created elsewhere. -/
lemma countPos_anchor_subst_aux : ∀ (n : Nat) (l : List Char), l.length ≤ n →
    countPos ANCHOR (subst ANCHOR PATCH_CODE l) = countPos ANCHOR l := by
  intro n
  induction n with
  | zero =>
    intro l hl
    have hnil : l = [] := List.length_eq_zero.mp (Nat.le_zero.mp hl)
    subst hnil
    rfl
  | succ k ih =>
    intro l hl
    cases l with
    | nil => rfl
    | cons c cs =>
      cases hA : ANCHOR.isPrefixOf (c :: cs) with
      | true =>
        obtain ⟨rest, hrest⟩ := List.isPrefixOf_iff_prefix.mp hA
        rw [← hrest]
        rw [subst_anchor_head, countPos_anchor_code_append, countPos_anchor_anchor_append]
        have hlen : rest.length ≤ k := by
          have h1 : (ANCHOR ++ rest).length = (c :: cs).length := by rw [hrest]
          rw [List.length_append, List.length_cons] at h1
          have h2 := anchor_length_pos
          have h3 : (c :: cs).length ≤ k + 1 := hl
          rw [List.length_cons] at h3
          omega
        rw [ih rest hlen]
      | false =>
        have hcs : cs.length ≤ k := by
          have h3 : (c :: cs).length ≤ k + 1 := hl
          rw [List.length_cons] at h3
          omega
        rw [subst_cons_neg hA, countPos_cons_eq, countPos_cons_eq]
        simp only [anchor_isPrefixOf_subst_eq c cs hA, hA, ih cs hcs]

/-- Anchor-count version without the fuel argument. -/
lemma countPos_anchor_subst (l : List Char) :
    countPos ANCHOR (subst ANCHOR PATCH_CODE l) = countPos ANCHOR l :=
  countPos_anchor_subst_aux l.length l (Nat.le_refl _)

/-- The scanning match count of `re.findall` coincides with the number of
anchor occurrence positions (the anchor cannot overlap itself). -/
lemma countMatches_anchor_aux : ∀ (n : Nat) (l : List Char), l.length ≤ n →
    countMatches ANCHOR l = countPos ANCHOR l := by
  intro n
  induction n with
  | zero =>
    intro l hl
    have hnil : l = [] := List.length_eq_zero.mp (Nat.le_zero.mp hl)
    subst hnil
    rfl
  | succ k ih =>
    intro l hl
    cases l with
    | nil => rfl
    | cons c cs =>
      cases hA : ANCHOR.isPrefixOf (c :: cs) with
      | true =>
        obtain ⟨rest, hrest⟩ := List.isPrefixOf_iff_prefix.mp hA
        rw [← hrest]
        rw [countMatches_anchor_head, countPos_anchor_anchor_append]
        have hlen : rest.length ≤ k := by
          have h1 : (ANCHOR ++ rest).length = (c :: cs).length := by rw [hrest]
          rw [List.length_append, List.length_cons] at h1
          have h2 := anchor_length_pos
          have h3 : (c :: cs).length ≤ k + 1 := hl
          rw [List.length_cons] at h3
          omega
        rw [ih rest hlen]
      | false =>
        have hcs : cs.length ≤ k := by
          have h3 : (c :: cs).length ≤ k + 1 := hl
          rw [List.length_cons] at h3
          omega
        rw [countMatches_cons_neg hA, countPos_cons_eq, ih cs hcs]
        simp only [hA]
        simp

/-- `len(re.findall(ANCHOR, l))` equals the number of anchor positions. -/
lemma countMatches_anchor_eq (l : List Char) : countMatches ANCHOR l = countPos ANCHOR l :=
  countMatches_anchor_aux l.length l (Nat.le_refl _)

/-- A text that ends with the anchor has at least one anchor position. -/
lemma countPos_anchor_end : ∀ x : List Char, 1 ≤ countPos ANCHOR (x ++ ANCHOR) := by
  intro x
  induction x with
  | nil =>
    rw [List.nil_append, countPos_anchor_anchor]
  | cons c xs ih =>
    rw [List.cons_append, countPos_cons_eq]
    omega

/-- Frame property of the substitution at the first match: if the displayed
anchor occurrence is the only one in `a ++ ANCHOR`, the substitution copies
`a` unchanged, replaces that occurrence by `PATCH_CODE`, and continues on `b`. -/
lemma subst_first_match : ∀ a b : List Char, countPos ANCHOR (a ++ ANCHOR) = 1 →
    subst ANCHOR PATCH_CODE (a ++ (ANCHOR ++ b)) = a ++ (PATCH_CODE ++ subst ANCHOR PATCH_CODE b) := by
  intro a
  induction a with
  | nil =>
    intro b _
    rw [List.nil_append, List.nil_append, subst_anchor_head]
  | cons c as ih =>
    intro b h1
    rw [List.cons_append, countPos_cons_eq] at h1
    have hend := countPos_anchor_end as
    have hp : ANCHOR.isPrefixOf (c :: (as ++ ANCHOR)) = false := by
      cases hx : ANCHOR.isPrefixOf (c :: (as ++ ANCHOR)) with
      | false => rfl
      | true =>
        rw [hx] at h1
        simp at h1
        omega
    have h2 : countPos ANCHOR (as ++ ANCHOR) = 1 := by
      rw [hp] at h1
      simpa using h1
    have hA : ANCHOR.isPrefixOf (c :: (as ++ (ANCHOR ++ b))) = false := by
      cases hx : ANCHOR.isPrefixOf (c :: (as ++ (ANCHOR ++ b))) with
      | false => rfl
      | true =>
        exfalso
        have hpre : ANCHOR <+: c :: (as ++ (ANCHOR ++ b)) := List.isPrefixOf_iff_prefix.mp hx
        have hre : c :: (as ++ (ANCHOR ++ b)) = (c :: (as ++ ANCHOR)) ++ b := by
          simp [List.append_assoc]
        rw [hre] at hpre
        have hlen : ANCHOR.length ≤ (c :: (as ++ ANCHOR)).length := by
          rw [List.length_cons, List.length_append]
          omega
        have := prefix_of_append_of_le hpre hlen
        rw [ List.isPrefixOf_iff_prefix.mpr this] at hp
        exact absurd hp (by simp)
    rw [List.cons_append, subst_cons_neg hA, ih b h2, List.cons_append]

/-! ### Unfolding lemmas for the modelled program -/

lemma not_marker_of_unpatched {l : List Char} (h : is_patched l = false) :
    ¬ PATCH_MARKER <:+: l := by
  intro hin
  have h2 := (containsSub_spec PATCH_MARKER l).mpr hin
  have h3 : is_patched l = true := h2
  rw [h3] at h
  exact absurd h (by simp)

lemma is_patched_true_of_marker {l : List Char} (h : PATCH_MARKER <:+: l) :
    is_patched l = true := (containsSub_spec PATCH_MARKER l).mpr h

lemma ensureBackup_target (fs : PatchFS) : (ensureBackup fs).target = fs.target := by
  cases h : fs.backup <;> simp [ensureBackup, h]

lemma ensureBackup_backup_none {fs : PatchFS} (h : fs.backup = none) :
    ensureBackup fs = { target := fs.target, backup := some fs.target } := by
  simp [ensureBackup, h]

lemma ensureBackup_backup_some {fs : PatchFS} {b : List Char} (h : fs.backup = some b) :
    ensureBackup fs = fs := by
  simp [ensureBackup, h]

lemma ensureBackup_idem (fs : PatchFS) : ensureBackup (ensureBackup fs) = ensureBackup fs := by
  cases hb : fs.backup with
  | none => rw [ensureBackup_backup_none hb]; exact ensureBackup_backup_some rfl
  | some b => rw [ensureBackup_backup_some hb]; exact ensureBackup_backup_some hb

lemma apply_patch_of_patched {fs : PatchFS} (h : is_patched fs.target = true) :
    apply_patch fs = (ApplyStatus.alreadyPatched, fs) := by
  simp [apply_patch, h]

lemma apply_patch_unpatched_nomatch {fs : PatchFS} (h1 : is_patched fs.target = false)
    (h2 : countMatches ANCHOR fs.target = 0) :
    apply_patch fs = (ApplyStatus.patternNotFound, ensureBackup fs) := by
  simp [apply_patch, h1, ensureBackup_target, h2]

lemma apply_patch_unpatched_match {fs : PatchFS} (h1 : is_patched fs.target = false)
    (h2 : countMatches ANCHOR fs.target ≠ 0) :
    apply_patch fs = (ApplyStatus.applied (countMatches ANCHOR fs.target),
      { target := subst ANCHOR PATCH_CODE fs.target, backup := (ensureBackup fs).backup }) := by
  simp [apply_patch, h1, ensureBackup_target, h2]

/-! ### The claims -/

/-- C1: for every file content that does not contain the patch marker and
contains at least one match of the anchor pattern, `apply_patch` returns
`True`, the resulting content contains the patch marker exactly once per
original anchor match, and if no backup existed beforehand a backup whose
content equals the original content is created. -/
theorem C1_apply_inserts_marker_once_per_match (fs : PatchFS)
    (hm : is_patched fs.target = false)
    (ha : 1 ≤ countMatches ANCHOR fs.target) :
    ((apply_patch fs).1).retBool = true ∧
    countPos PATCH_MARKER ((apply_patch fs).2).target = countMatches ANCHOR fs.target ∧
    (fs.backup = none → ((apply_patch fs).2).backup = some fs.target) := by
  have h2 : countMatches ANCHOR fs.target ≠ 0 := by omega
  rw [apply_patch_unpatched_match hm h2]
  refine ⟨rfl, ?_, fun hb => ?_⟩
  · show countPos PATCH_MARKER (subst ANCHOR PATCH_CODE fs.target) = countMatches ANCHOR fs.target
    rw [countPos_marker_subst fs.target (not_marker_of_unpatched hm), countMatches_anchor_eq]
  · show (ensureBackup fs).backup = some fs.target
    rw [ensureBackup_backup_none hb]

/-- Witness for C1 at the concrete content `ANCHOR` with no preexisting backup. -/
theorem C1_apply_inserts_marker_once_per_match_witness :
    ((apply_patch ⟨ANCHOR, none⟩).1).retBool = true ∧
    countPos PATCH_MARKER ((apply_patch ⟨ANCHOR, none⟩).2).target = countMatches ANCHOR ANCHOR ∧
    ((⟨ANCHOR, none⟩ : PatchFS).backup = none →
      ((apply_patch ⟨ANCHOR, none⟩).2).backup = some ANCHOR) :=
  C1_apply_inserts_marker_once_per_match ⟨ANCHOR, none⟩ (by decide) (by decide)

/-- C2: provided no backup existed before the first apply, running undo after
apply restores the target content exactly. -/
theorem C2_roundtrip (fs : PatchFS) (h : fs.backup = none) :
    ((undo_patch ((apply_patch fs).2)).2).target = fs.target := by
  cases hp : is_patched fs.target with
  | true =>
    rw [apply_patch_of_patched hp]
    simp [undo_patch, h]
  | false =>
    by_cases hn : countMatches ANCHOR fs.target = 0
    · rw [apply_patch_unpatched_nomatch hp hn, ensureBackup_backup_none h]
      simp [undo_patch]
    · rw [apply_patch_unpatched_match hp hn, ensureBackup_backup_none h]
      simp [undo_patch]

/-- Witness for C2 at the concrete content `ANCHOR` with no preexisting backup. -/
theorem C2_roundtrip_witness :
    ((undo_patch ((apply_patch ⟨ANCHOR, none⟩).2)).2).target = ANCHOR :=
  C2_roundtrip ⟨ANCHOR, none⟩ rfl

/-- C3: on content already containing the marker, apply is a no-op: it returns
`False` and leaves the whole file-system state (target and backup) unchanged,
so no backup is created if none existed. -/
theorem C3_apply_noop_when_marker (fs : PatchFS) (h : is_patched fs.target = true) :
    ((apply_patch fs).1).retBool = false ∧ (apply_patch fs).2 = fs := by
  rw [apply_patch_of_patched h]
  exact ⟨rfl, rfl⟩

/-- Witness for C3 at the concrete content `PATCH_MARKER` with no backup. -/
theorem C3_apply_noop_when_marker_witness :
    ((apply_patch ⟨PATCH_MARKER, none⟩).1).retBool = false ∧
      (apply_patch ⟨PATCH_MARKER, none⟩).2 = ⟨PATCH_MARKER, none⟩ :=
  C3_apply_noop_when_marker ⟨PATCH_MARKER, none⟩ (by decide)

/-- C4: once a backup exists, apply never overwrites or mutates it, whatever
the current target content is. -/
theorem C4_backup_never_overwritten (fs : PatchFS) (b : List Char)
    (h : fs.backup = some b) : ((apply_patch fs).2).backup = some b := by
  cases hp : is_patched fs.target with
  | true =>
    rw [apply_patch_of_patched hp]
    exact h
  | false =>
    by_cases hn : countMatches ANCHOR fs.target = 0
    · rw [apply_patch_unpatched_nomatch hp hn]
      show (ensureBackup fs).backup = some b
      rw [ensureBackup_backup_some h]
      exact h
    · rw [apply_patch_unpatched_match hp hn]
      show (ensureBackup fs).backup = some b
      rw [ensureBackup_backup_some h]
      exact h

/-- Witness for C4: the preexisting backup `"orig"` (different from the
target) survives an apply on target `ANCHOR`. -/
theorem C4_backup_never_overwritten_witness :
    ((apply_patch ⟨ANCHOR, some "orig".data⟩).2).backup = some "orig".data :=
  C4_backup_never_overwritten ⟨ANCHOR, some "orig".data⟩ "orig".data rfl

/-- C5: on marker-free content with zero anchor matches, apply leaves the
target unchanged, takes the "pattern not found" diagnostic exit, returns a
negative result, and(step order) still creates a backup equal to the
unmodified target first if none existed. -/
theorem C5_no_match_diagnostic (fs : PatchFS)
    (hm : is_patched fs.target = false)
    (ha : countMatches ANCHOR fs.target = 0) :
    (apply_patch fs).1 = ApplyStatus.patternNotFound ∧
    ((apply_patch fs).1).retBool = false ∧
    ((apply_patch fs).2).target = fs.target ∧
    (fs.backup = none → ((apply_patch fs).2).backup = some fs.target) := by
  rw [apply_patch_unpatched_nomatch hm ha]
  refine ⟨rfl, rfl, ensureBackup_target fs, fun hb => ?_⟩
  show (ensureBackup fs).backup = some fs.target
  rw [ensureBackup_backup_none hb]

/-- Witness for C5 at the concrete anchor-free, marker-free content `"x"`. -/
theorem C5_no_match_diagnostic_witness :
    (apply_patch ⟨"x".data, none⟩).1 = ApplyStatus.patternNotFound ∧
    ((apply_patch ⟨"x".data, none⟩).1).retBool = false ∧
    ((apply_patch ⟨"x".data, none⟩).2).target = "x".data ∧
    ((⟨"x".data, none⟩ : PatchFS).backup = none →
      ((apply_patch ⟨"x".data, none⟩).2).backup = some "x".data) :=
  C5_no_match_diagnostic ⟨"x".data, none⟩ (by decide) (by decide)

/-- C6: applying the patch twice yields the same state as applying it once;
the second apply performs no mutation and reports a negative result. -/
theorem C6_idempotent (fs : PatchFS) :
    (apply_patch ((apply_patch fs).2)).2 = (apply_patch fs).2 ∧
    ((apply_patch ((apply_patch fs).2)).1).retBool = false := by
  cases hp : is_patched fs.target with
  | true =>
    rw [apply_patch_of_patched hp, apply_patch_of_patched hp]
    exact ⟨rfl, rfl⟩
  | false =>
    by_cases hn : countMatches ANCHOR fs.target = 0
    · rw [apply_patch_unpatched_nomatch hp hn]
      have hp1 : is_patched ((ensureBackup fs).target) = false := by
        rw [ensureBackup_target]
        exact hp
      have hn1 : countMatches ANCHOR ((ensureBackup fs).target) = 0 := by
        rw [ensureBackup_target]
        exact hn
      rw [apply_patch_unpatched_nomatch hp1 hn1]
      exact ⟨ensureBackup_idem fs, rfl⟩
    · rw [apply_patch_unpatched_match hp hn]
      have hp2 : is_patched (subst ANCHOR PATCH_CODE fs.target) = true := by
        apply is_patched_true_of_marker
        apply infix_of_countPos_pos
        rw [countPos_marker_subst fs.target (not_marker_of_unpatched hp)]
        rw [← countMatches_anchor_eq]
        exact hn
      rw [apply_patch_of_patched hp2]
      exact ⟨rfl, rfl⟩

/-- C7: undo copies an existing backup over the target, returns `True`, and
leaves the backup itself untouched; with no backup it returns `False` and
changes nothing. -/
theorem C7_undo_semantics (fs : PatchFS) :
    (∀ b : List Char, fs.backup = some b →
      undo_patch fs = (true, { target := b, backup := some b })) ∧
    (fs.backup = none → undo_patch fs = (false, fs)) := by
  constructor
  · intro b hb
    simp [undo_patch, hb]
  · intro hb
    simp [undo_patch, hb]

/-- Witness for C7 at concrete states with and without a backup. -/
theorem C7_undo_semantics_witness :
    undo_patch ⟨"t".data, some "b".data⟩ = (true, ⟨"b".data, some "b".data⟩) ∧
    undo_patch ⟨"t".data, none⟩ = (false, ⟨"t".data, none⟩) :=
  ⟨(C7_undo_semantics ⟨"t".data, some "b".data⟩).1 "b".data rfl,
   (C7_undo_semantics ⟨"t".data, none⟩).2 rfl⟩

/-- C8: exit-code contract of `main`: with `--check` the process exits 0 when
the target is patched and 1 when not; apply mode and `--undo` exit 0 always. -/
theorem C8_exit_codes (fs : PatchFS) :
    ((main_run CliMode.checkMode fs).1 = if is_patched fs.target then 0 else 1) ∧
    (main_run CliMode.undoMode fs).1 = 0 ∧
    (main_run CliMode.applyMode fs).1 = 0 :=
  ⟨rfl, rfl, rfl⟩

/-- C9: concrete scenario: on a target containing exactly one occurrence of
the anchor line, apply reports match count 1 and the result places the
marker-bearing inserted block immediately before the (preserved) anchor line. -/
theorem C9_concrete_scenario :
    apply_patch ⟨"x".data ++ ANCHOR ++ "y".data, none⟩ =
      (ApplyStatus.applied 1,
        ⟨"x".data ++ BLOCK ++ ANCHOR ++ "y".data,
          some ("x".data ++ ANCHOR ++ "y".data)⟩) ∧
    containsSub PATCH_MARKER BLOCK = true := by
  refine ⟨by decide, by decide⟩

/-- C10: frame property of the substitution: `PATCH_CODE` is the inserted
block followed by a copy of the anchor; around the (sole leftmost) anchor
occurrence every byte outside the match is preserved and the match itself is
replaced by `PATCH_CODE`; consequently the substituted content contains
exactly as many anchor matches as the original, for every content. -/
theorem C10_frame_property :
    PATCH_CODE = BLOCK ++ ANCHOR ∧
    (∀ a b : List Char, countPos ANCHOR (a ++ ANCHOR) = 1 →
      subst ANCHOR PATCH_CODE (a ++ ANCHOR ++ b) =
        a ++ PATCH_CODE ++ subst ANCHOR PATCH_CODE b) ∧
    (∀ l : List Char, countPos ANCHOR (subst ANCHOR PATCH_CODE l) = countPos ANCHOR l) := by
  refine ⟨code_eq_block_append_anchor, fun a b h => ?_, countPos_anchor_subst⟩
  have h2 := subst_first_match a b h
  rw [List.append_assoc a ANCHOR b, List.append_assoc a PATCH_CODE _]
  exact h2

/-- Witness for C10 at a concrete one-anchor content. -/
theorem C10_frame_property_witness :
    subst ANCHOR PATCH_CODE ("q".data ++ ANCHOR ++ "r".data) =
      "q".data ++ PATCH_CODE ++ subst ANCHOR PATCH_CODE "r".data :=
  C10_frame_property.2.1 "q".data "r".data (by decide)

end ApplyPatchModel
